import Mathlib

/-!
Shallow embedding of the core logic of the `roam-imager` extension
(`src/unnamed/part_000`): markdown image extraction (`processImageBatch`),
context enrichment (`enhanceImagesWithContext`), sorting (`sortImages`) and
the search filter (`searchInput.oninput`), together with proofs of the
specification's claims about them.

Modelling conventions:
- JS strings are Lean `String`s; character-level algorithms work on `List Char`.
- The host query API (`window.roamAlphaAPI.q`) is an oracle parameter; a query
  that throws is modelled by an `Except.error` result, and the `try`/`catch`
  in the source is modelled by explicit matching on that result.
- `String.prototype.toLowerCase` is modelled by `Char.toLower` (ASCII case
  mapping); `String.prototype.trim` by dropping whitespace characters from
  both ends; `String.prototype.includes` by substring containment;
  `String.prototype.localeCompare` by an oracle `lc : String → String → Int`
  since its ordering is host- and locale-defined.
- JS `Array.prototype.sort` with a consistent comparator is a stable sort of
  the induced total preorder, modelled by `List.insertionSort` (stable).
-/

namespace RoamImager

/-- The whitespace characters recognised by `String.prototype.trim`
(ECMAScript WhiteSpace ∪ LineTerminator, including the Zs space separators). -/
def jsWhitespace (c : Char) : Bool :=
  c = ' ' || c = '\t' || c = '\n' || c = '\r' ||
  c.val = 0x0B || c.val = 0x0C || c.val = 0xA0 || c.val = 0x1680 ||
  (0x2000 ≤ c.val && c.val ≤ 0x200A) ||
  c.val = 0x2028 || c.val = 0x2029 || c.val = 0x202F || c.val = 0x205F ||
  c.val = 0x3000 || c.val = 0xFEFF

/-- `String.prototype.trim` on the character list: drop whitespace from the
left, then from the right. -/
def jsTrimList (l : List Char) : List Char :=
  List.rdropWhile jsWhitespace (List.dropWhile jsWhitespace l)

/-- `String.prototype.trim`. -/
def jsTrim (s : String) : String :=
  String.mk (jsTrimList s.data)

/-- `String.prototype.toLowerCase`, modelled with the ASCII case mapping. -/
def jsToLower (s : String) : String :=
  String.mk (s.data.map Char.toLower)

/-- Substring containment on character lists: `containsSub needle haystack`
is true when `needle` occurs contiguously inside `haystack`.  Models
`String.prototype.includes` (receiver is the haystack). -/
def containsSub (needle : List Char) : List Char → Bool
  | [] => needle.isEmpty
  | c :: cs => needle.isPrefixOf (c :: cs) || containsSub needle cs

/-- `haystack.includes(needle)` for JS strings. -/
def jsIncludes (haystack needle : String) : Bool :=
  containsSub needle.data haystack.data

/-! ### The markdown image regex

`processImageBatch` (source lines 111–135) extracts images with the regex
`/!\[([^\]]*)\]\(([^)]+)\)/g` run by repeated `exec`.  Because the alt
character class excludes `]` and the url character class excludes `)`, the
regex is deterministic: a match starting at a position is `!`, `[`, the
characters up to the first following `]` (the alt), then `(`, then at least
one character up to the first following `)` (the url).  Global `exec`
repeatedly finds the leftmost match at or after the end of the previous
match. -/

/-- Split a character list at the first occurrence of `stop`: returns the
characters strictly before it and the characters strictly after it, or `none`
when `stop` does not occur. -/
def splitUntil (stop : Char) : List Char → Option (List Char × List Char)
  | [] => none
  | c :: cs =>
    if c = stop then some ([], cs)
    else
      match splitUntil stop cs with
      | none => none
      | some (pre, post) => some (c :: pre, post)

/-- One attempt of the image regex at the start of `l`: on success returns
the captured alt text, the captured (non-empty) url, and the remainder of the
input after the closing parenthesis. -/
def tryMatchAt : List Char → Option (List Char × List Char × List Char)
  | c1 :: c2 :: rest =>
    if c1 = '!' && c2 = '[' then
      match splitUntil ']' rest with
      | none => none
      | some (alt, afterAlt) =>
        match afterAlt with
        | [] => none
        | c3 :: afterParen =>
          if c3 = '(' then
            match splitUntil ')' afterParen with
            | none => none
            | some (url, afterUrl) =>
              if url = [] then none else some (alt, url, afterUrl)
          else none
    else none
  | _ => none

/-- Worker for `findImageMatches`, structurally recursive on a fuel bound so
that it evaluates by kernel reduction; one unit of fuel is spent per input
position or match. -/
def findImageMatchesFuel : Nat → List Char → List (List Char × List Char)
  | 0, _ => []
  | _ + 1, [] => []
  | fuel + 1, c :: cs =>
    match tryMatchAt (c :: cs) with
    | some (alt, url, rest) => (alt, url) :: findImageMatchesFuel fuel rest
    | none => findImageMatchesFuel fuel cs

/-- All matches of the image regex over the input, in left-to-right order,
as (alt, url) capture pairs: repeatedly try the regex at each position,
resuming after the end of each successful match (the semantics of a global
regex driven by `exec` in a loop, source lines 111–114). -/
def findImageMatches (l : List Char) : List (List Char × List Char) :=
  findImageMatchesFuel l.length l

/-! ### Image records and extraction -/

/-- One discovered image occurrence, with the fields pushed by
`processImageBatch` (source lines 120–132). -/
structure ImageRecord where
  uid : String
  url : String
  alt : String
  createTime : Option Int
  pageTitle : String
  blockContent : String
  parentContent : String
  childrenContent : String
  siblingsContent : String
  searchableContent : String
  contextLoaded : Bool
deriving DecidableEq, Repr

/-- The spam domain filtered out by `processImageBatch` (source line 119). -/
def denylist : String := "mmbiz.qpic.cn"

/-- The extraction step of `processImageBatch` (source lines 111–135): run
the image regex over the block content; for each match, skip it when the
captured url is empty (`if (url)`), trim the url, skip it when the trimmed
url contains the denylisted domain, and otherwise push a record.  Note that
the record's `pageTitle` falls back to `"Untitled"` while `searchableContent`
uses the raw page title, exactly as in the source. -/
def extractImagesFromContent (uid : String) (createTime : Int)
    (content pageTitle : String) : List ImageRecord :=
  (findImageMatches content.data).filterMap (fun m =>
    if m.2 = [] then none
    else
      let trimmedUrl := jsTrimList m.2
      if containsSub denylist.data trimmedUrl then none
      else some
        { uid := uid
          url := String.mk trimmedUrl
          alt := if m.1 = [] then "Image" else String.mk m.1
          createTime := if createTime > 0 then some createTime else none
          pageTitle := if pageTitle = "" then "Untitled" else pageTitle
          blockContent := content
          parentContent := ""
          childrenContent := ""
          siblingsContent := ""
          searchableContent := jsToLower (content ++ " " ++ pageTitle)
          contextLoaded := false })

/-! ### Batched hydration (`processImageBatch`) -/

/-- The per-block hydration oracle: maps a block uid to the rows returned by
the per-block datalog query of `processImageBatch` (pairs of block string and
page title), or to an error when the query throws. -/
abbrev QueryOracle : Type := String → Except String (List (String × String))

/-- Whether an `Except` result is a success. -/
def exceptOk {ε α : Type} : Except ε α → Bool
  | Except.ok _ => true
  | Except.error _ => false

/-- The body of the `try` block of `processImageBatch` for one element of the
uid batch (source lines 95–136): run the block query; on success, when the
result is non-empty take its first row and extract the images from it,
otherwise produce no images.  A query failure is propagated to the caller's
`catch`. -/
def processBlock (q : QueryOracle) (uid : String) (createTime : Int) :
    Except String (List ImageRecord) :=
  match q uid with
  | Except.error e => Except.error e
  | Except.ok blockResult =>
    Except.ok
      (match blockResult with
       | [] => []
       | (content, pageTitle) :: _ =>
         extractImagesFromContent uid createTime content pageTitle)

/-- The images one batch element contributes: none when its query fails. -/
def blockImages (q : QueryOracle) (e : String × Int) : List ImageRecord :=
  match processBlock q e.1 e.2 with
  | Except.error _ => []
  | Except.ok imgs => imgs

/-- `processImageBatch` (source lines 91–143): fold over the uid batch,
appending each block's extracted images; the `catch` keeps the accumulator
unchanged when a block's query fails. -/
def processImageBatch (q : QueryOracle) (uidBatch : List (String × Int)) :
    List ImageRecord :=
  uidBatch.foldl
    (fun images e =>
      match processBlock q e.1 e.2 with
      | Except.error _ => images
      | Except.ok newImages => images ++ newImages)
    []

/-! ### Context enrichment (`enhanceImagesWithContext`) -/

/-- The context returned by `getBlockContext` (source lines 10–58); since
that function catches its own query failures and returns empty strings, the
context oracle is total. -/
structure BlockContext where
  parentContent : String
  childrenContent : String
  siblingsContent : String
deriving DecidableEq, Repr

/-- The per-record body of the `Promise.all` lambda of
`enhanceImagesWithContext` (source lines 153–162): a record whose context is
already loaded is left untouched and issues no query; otherwise the context
is fetched for its uid, the three context fields are set, the searchable
content is recomputed, and the flag is set.  The second component records
which uids were queried. -/
def enhanceImage (ctx : String → BlockContext) (img : ImageRecord) :
    ImageRecord × List String :=
  if img.contextLoaded then (img, [])
  else
    let c := ctx img.uid
    ({ img with
        parentContent := c.parentContent
        childrenContent := c.childrenContent
        siblingsContent := c.siblingsContent
        searchableContent := jsToLower (img.blockContent ++ " " ++ c.parentContent ++ " " ++
          c.childrenContent ++ " " ++ c.siblingsContent ++ " " ++ img.pageTitle)
        contextLoaded := true },
      [img.uid])

/-- `enhanceImagesWithContext` (source lines 146–171).  The batching (slices
of 10 processed with `Promise.all`) only affects scheduling and the progress
callback; each record is transformed independently, so the resulting list is
the element-wise enhancement, with the issued context queries collected in
order. -/
def enhanceImagesWithContext (ctx : String → BlockContext)
    (images : List ImageRecord) : List ImageRecord × List String :=
  (images.map (fun img => (enhanceImage ctx img).1),
   images.flatMap (fun img => (enhanceImage ctx img).2))

/-! ### Sorting (`sortImages`) -/

/-- The `newest` comparator (source lines 181–186): nulls after non-nulls,
equal nulls tie, otherwise descending by creation time. -/
def newestCompare (a b : ImageRecord) : Int :=
  match a.createTime, b.createTime with
  | none, none => 0
  | none, some _ => 1
  | some _, none => -1
  | some ta, some tb => tb - ta

/-- The `oldest` comparator (source lines 191–196): nulls after non-nulls,
equal nulls tie, otherwise ascending by creation time. -/
def oldestCompare (a b : ImageRecord) : Int :=
  match a.createTime, b.createTime with
  | none, none => 0
  | none, some _ => 1
  | some _, none => -1
  | some ta, some tb => ta - tb

/-- The non-strict order induced by the `newest` comparator. -/
def NewestLe (a b : ImageRecord) : Prop := newestCompare a b ≤ 0

/-- The non-strict order induced by the `oldest` comparator. -/
def OldestLe (a b : ImageRecord) : Prop := oldestCompare a b ≤ 0

/-- The non-strict order induced by the `page-alpha` comparator
`(a, b) => a.pageTitle.localeCompare(b.pageTitle)` (source line 200). -/
def PageLe (lc : String → String → Int) (a b : ImageRecord) : Prop :=
  lc a.pageTitle b.pageTitle ≤ 0

/-- The non-strict order induced by the `page-reverse` comparator
`(a, b) => b.pageTitle.localeCompare(a.pageTitle)` (source line 204). -/
def PageGe (lc : String → String → Int) (a b : ImageRecord) : Prop :=
  lc b.pageTitle a.pageTitle ≤ 0

instance : DecidableRel NewestLe := fun a b =>
  inferInstanceAs (Decidable (newestCompare a b ≤ 0))

instance : DecidableRel OldestLe := fun a b =>
  inferInstanceAs (Decidable (oldestCompare a b ≤ 0))

instance (lc : String → String → Int) : DecidableRel (PageLe lc) := fun a b =>
  inferInstanceAs (Decidable (lc a.pageTitle b.pageTitle ≤ 0))

instance (lc : String → String → Int) : DecidableRel (PageGe lc) := fun a b =>
  inferInstanceAs (Decidable (lc b.pageTitle a.pageTitle ≤ 0))

/-- `sortImages` (source lines 174–217): copy the input and sort the copy
with the comparator selected by the sort order, defaulting to the `newest`
comparator for unknown orders.  JS `Array.prototype.sort` with a consistent
comparator is a stable sort of the induced total preorder, which
`List.insertionSort` is; `lc` is the host's `localeCompare`. -/
def sortImages (lc : String → String → Int) (images : List ImageRecord)
    (sortOrder : String) : List ImageRecord :=
  if sortOrder = "newest" then List.insertionSort NewestLe images
  else if sortOrder = "oldest" then List.insertionSort OldestLe images
  else if sortOrder = "page-alpha" then List.insertionSort (PageLe lc) images
  else if sortOrder = "page-reverse" then List.insertionSort (PageGe lc) images
  else List.insertionSort NewestLe images

/-- A reference-level model of `sortImages` for the mutation claim: the heap
is the pool of live JS arrays and `r` the reference the caller passes in.
The source (lines 174–216) first copies the input (`const sorted =
[...images]`, a fresh allocation) and then sorts the copy in place, returning
the new reference; the input array is never written. -/
def sortImagesRef (lc : String → String → Int) (heap : List (List ImageRecord))
    (r : Nat) (sortOrder : String) : List (List ImageRecord) × Nat :=
  let images := heap.getD r []
  let rNew := heap.length
  let heap1 := heap ++ [images]
  let heap2 := heap1.set rNew (sortImages lc images sortOrder)
  (heap2, rNew)

/-! ### Search filtering (`searchInput.oninput`) -/

/-- The search handler's filtering step (source lines 783–798): lowercase the
input value; when it is non-empty (JS truthiness of a string) keep the
records whose searchable content contains it, otherwise keep everything;
then re-apply the current sort order. -/
def searchFilter (lc : String → String → Int) (allImages : List ImageRecord)
    (value : String) (sortOrder : String) : List ImageRecord :=
  sortImages lc
    (if jsToLower value ≠ "" then
      allImages.filter (fun img => jsIncludes img.searchableContent (jsToLower value))
    else allImages)
    sortOrder

/-! ### Concrete records used by witnesses and scenario checks -/

/-- A minimal record with a given creation time, for the sorting scenarios. -/
def mkTestRec (t : Option Int) : ImageRecord :=
  { uid := "", url := "u", alt := "", createTime := t, pageTitle := "",
    blockContent := "", parentContent := "", childrenContent := "",
    siblingsContent := "", searchableContent := "", contextLoaded := false }

/-- The record extracted from the block text `"![a](x)"` on page `"p"`. -/
def sampleRec : ImageRecord :=
  { uid := "u", url := "x", alt := "a", createTime := some 1, pageTitle := "p",
    blockContent := "![a](x)", parentContent := "", childrenContent := "",
    siblingsContent := "", searchableContent := "![a](x) p",
    contextLoaded := false }

/-- An already-enriched record, for the idempotence witness. -/
def loadedRec : ImageRecord :=
  { uid := "u1", url := "x", alt := "a", createTime := some 2, pageTitle := "p",
    blockContent := "b", parentContent := "par", childrenContent := "ch",
    siblingsContent := "sib", searchableContent := "b par ch sib p",
    contextLoaded := true }

/-- A trivially consistent locale comparison, for witnesses. -/
def constCompare : String → String → Int := fun _ _ => 0

/-- A concrete context oracle, for witnesses. -/
def ctxSample : String → BlockContext := fun _ =>
  { parentContent := "P", childrenContent := "C", siblingsContent := "S" }

/-! ## Theorems -/

theorem containsSub_iff {needle : List Char} :
    ∀ {l : List Char}, containsSub needle l = true ↔ needle <:+: l
  | [] => by
    simp [containsSub, List.isEmpty_iff]
  | c :: cs => by
    rw [containsSub, List.infix_cons_iff]
    simp [containsSub_iff (l := cs)]

theorem containsSub_nil_left (l : List Char) : containsSub [] l = true :=
  containsSub_iff.mpr List.nil_infix

theorem splitUntil_length (stop : Char) : ∀ {l pre post : List Char},
    splitUntil stop l = some (pre, post) → post.length < l.length
  | [], _, _, h => by simp [splitUntil] at h
  | c :: cs, pre, post, h => by
    rw [splitUntil] at h
    by_cases hc : c = stop
    · rw [if_pos hc] at h
      injection h with h
      injection h with _ h
      subst h
      simp
    · rw [if_neg hc] at h
      cases hs : splitUntil stop cs with
      | none => rw [hs] at h; cases h
      | some pp =>
        obtain ⟨pre2, post2⟩ := pp
        rw [hs] at h
        injection h with h
        injection h with _ h
        subst h
        exact Nat.lt_succ_of_lt (splitUntil_length stop hs)

theorem tryMatchAt_spec : ∀ {l alt url rest : List Char},
    tryMatchAt l = some (alt, url, rest) → rest.length < l.length ∧ url ≠ [] := by
  intro l alt url rest h
  unfold tryMatchAt at h
  split at h
  case h_1 c1 c2 rest0 =>
    split at h
    case isTrue =>
      cases h1 : splitUntil ']' rest0 with
      | none => rw [h1] at h; cases h
      | some p1 =>
        obtain ⟨a1, after1⟩ := p1
        rw [h1] at h
        cases after1 with
        | nil => cases h
        | cons c3 rest2 =>
          dsimp only at h
          by_cases hc3 : c3 = '('
          · rw [if_pos hc3] at h
            cases h2 : splitUntil ')' rest2 with
            | none => rw [h2] at h; cases h
            | some p2 =>
              obtain ⟨u2, after2⟩ := p2
              rw [h2] at h
              dsimp only at h
              by_cases hu : u2 = []
              · rw [if_pos hu] at h; cases h
              · rw [if_neg hu] at h
                injection h with h
                injection h with h1' h
                injection h with h2' h3'
                subst h1' h2' h3'
                refine ⟨?_, hu⟩
                have hl2 := splitUntil_length ')' h2
                have hl1 := splitUntil_length ']' h1
                simp only [List.length_cons] at hl1 ⊢
                omega
          · rw [if_neg hc3] at h; cases h
    case isFalse => cases h
  case h_2 => cases h

theorem tryMatchAt_length {l alt url rest : List Char}
    (h : tryMatchAt l = some (alt, url, rest)) : rest.length < l.length :=
  (tryMatchAt_spec h).1

theorem tryMatchAt_url_ne_nil {l alt url rest : List Char}
    (h : tryMatchAt l = some (alt, url, rest)) : url ≠ [] :=
  (tryMatchAt_spec h).2

theorem findImageMatchesFuel_congr : ∀ (fuel1 fuel2 : Nat) (l : List Char),
    l.length ≤ fuel1 → l.length ≤ fuel2 →
    findImageMatchesFuel fuel1 l = findImageMatchesFuel fuel2 l
  | 0, fuel2, l, h1, _ => by
    have : l = [] := List.eq_nil_of_length_eq_zero (Nat.le_zero.mp h1)
    subst this
    cases fuel2 <;> rfl
  | fuel1 + 1, fuel2, [], _, _ => by cases fuel2 <;> rfl
  | fuel1 + 1, fuel2, c :: cs, h1, h2 => by
    cases fuel2 with
    | zero => simp at h2
    | succ f2 =>
      rw [findImageMatchesFuel, findImageMatchesFuel]
      simp only [List.length_cons, Nat.add_le_add_iff_right] at h1 h2
      cases htry : tryMatchAt (c :: cs) with
      | none => exact findImageMatchesFuel_congr fuel1 f2 cs h1 h2
      | some m =>
        obtain ⟨alt, url, rest⟩ := m
        dsimp only
        have hlt := tryMatchAt_length htry
        simp only [List.length_cons] at hlt
        have hr1 : rest.length ≤ fuel1 := by omega
        have hr2 : rest.length ≤ f2 := by omega
        rw [findImageMatchesFuel_congr fuel1 f2 rest hr1 hr2]

/-- The one-step unfolding of `findImageMatches`, matching the `exec` loop:
try the regex at the current position; on a match, emit its captures and
resume after the match, otherwise advance one character. -/
theorem findImageMatches_eq (l : List Char) :
    findImageMatches l =
      match l with
      | [] => []
      | c :: cs =>
        match tryMatchAt (c :: cs) with
        | some (alt, url, rest) => (alt, url) :: findImageMatches rest
        | none => findImageMatches cs := by
  cases l with
  | nil => rfl
  | cons c cs =>
    show findImageMatchesFuel (cs.length + 1) (c :: cs) = _
    rw [findImageMatchesFuel]
    dsimp only
    cases htry : tryMatchAt (c :: cs) with
    | none => rfl
    | some m =>
      obtain ⟨alt, url, rest⟩ := m
      dsimp only
      have hlt := tryMatchAt_length htry
      simp only [List.length_cons] at hlt
      have h2 : findImageMatchesFuel cs.length rest = findImageMatches rest :=
        findImageMatchesFuel_congr cs.length rest.length rest (by omega) (Nat.le_refl _)
      rw [h2]

theorem findImageMatchesFuel_url_ne_nil :
    ∀ (fuel : Nat) (l : List Char), ∀ m ∈ findImageMatchesFuel fuel l, m.2 ≠ [] := by
  intro fuel
  induction fuel with
  | zero => intro l m hm; simp [findImageMatchesFuel] at hm
  | succ f ih =>
    intro l m hm
    cases l with
    | nil => simp [findImageMatchesFuel] at hm
    | cons c cs =>
      rw [findImageMatchesFuel] at hm
      cases htry : tryMatchAt (c :: cs) with
      | none =>
        rw [htry] at hm
        exact ih cs m hm
      | some mt =>
        obtain ⟨alt, url, rest⟩ := mt
        rw [htry] at hm
        rcases List.mem_cons.mp hm with hm | hm
        · subst hm
          exact tryMatchAt_url_ne_nil htry
        · exact ih rest m hm

theorem findImageMatches_url_ne_nil
    (l : List Char) : ∀ m ∈ findImageMatches l, m.2 ≠ [] :=
  findImageMatchesFuel_url_ne_nil l.length l

/-! ### Trimming lemmas -/

theorem dropWhile_eq_self_of_leading {p : Char → Bool} {y x : List Char}
    (hyx : y <+: x) (hx : List.dropWhile p x = x) : List.dropWhile p y = y := by
  rw [List.dropWhile_eq_self_iff] at hx ⊢
  intro hl
  have hxl : 0 < x.length := Nat.lt_of_lt_of_le hl hyx.length_le
  have hg : y.get ⟨0, hl⟩ = x.get ⟨0, hxl⟩ := by
    have := hyx.getElem (n := 0) hl
    simpa [List.get_eq_getElem] using this
  rw [hg]
  exact hx hxl

theorem jsTrimList_idem (l : List Char) : jsTrimList (jsTrimList l) = jsTrimList l := by
  unfold jsTrimList
  have h1 : List.dropWhile jsWhitespace (List.dropWhile jsWhitespace l) =
      List.dropWhile jsWhitespace l := List.dropWhile_idempotent _ _
  have hpre : List.rdropWhile jsWhitespace (List.dropWhile jsWhitespace l) <+:
      List.dropWhile jsWhitespace l := List.rdropWhile_prefix _ _
  rw [dropWhile_eq_self_of_leading hpre h1]
  exact List.rdropWhile_idempotent _ _

theorem jsTrim_idem (s : String) : jsTrim (jsTrim s) = jsTrim s := by
  unfold jsTrim
  rw [jsTrimList_idem]

theorem infixKept_dropWhile {p : Char → Bool} {n u : List Char}
    (hn : List.dropWhile p n = n) (hne : n ≠ []) (h : n <:+: u) :
    n <:+: List.dropWhile p u := by
  obtain ⟨s, t, rfl⟩ := h
  rw [List.append_assoc, List.dropWhile_append]
  split
  case isTrue hs =>
    rw [List.dropWhile_append]
    split
    case isTrue hn2 =>
      rw [hn] at hn2
      rw [List.isEmpty_iff] at hn2
      exact absurd hn2 hne
    case isFalse =>
      rw [hn]
      exact ⟨[], t, by simp⟩
  case isFalse =>
    exact ⟨List.dropWhile p s, t, by simp⟩

theorem infixKept_rdropWhile {p : Char → Bool} {n u : List Char}
    (hn : List.rdropWhile p n = n) (hne : n ≠ []) (h : n <:+: u) :
    n <:+: List.rdropWhile p u := by
  have hrev : n.reverse <:+: u.reverse := List.reverse_infix.mpr h
  have hn2 : List.dropWhile p n.reverse = n.reverse := by
    have hc := congrArg List.reverse hn
    rwa [List.rdropWhile, List.reverse_reverse] at hc
  have hne2 : n.reverse ≠ [] := by simpa using hne
  have h2 := infixKept_dropWhile hn2 hne2 hrev
  have h3 : n.reverse.reverse <:+: (List.dropWhile p u.reverse).reverse :=
    List.reverse_infix.mpr h2
  rw [List.reverse_reverse] at h3
  rw [List.rdropWhile]
  exact h3

theorem containsSub_denylist_trim {u : List Char}
    (h : containsSub denylist.data u = true) :
    containsSub denylist.data (jsTrimList u) = true := by
  rw [containsSub_iff] at h ⊢
  unfold jsTrimList
  have hne : denylist.data ≠ [] := by decide
  have h1 : List.dropWhile jsWhitespace denylist.data = denylist.data := by decide
  have h2 : List.rdropWhile jsWhitespace denylist.data = denylist.data := by decide
  exact infixKept_rdropWhile h2 hne (infixKept_dropWhile h1 hne h)

/-! ### Extraction lemmas -/

theorem filterMap_eq_map_filter_of {α β : Type} (f : α → Option β) (p : α → Bool)
    (g : α → β) : ∀ (l : List α),
    (∀ m ∈ l, f m = if p m = true then some (g m) else none) →
    l.filterMap f = (l.filter p).map g
  | [], _ => rfl
  | a :: l, h => by
    rw [List.filterMap_cons, List.filter_cons]
    have ha := h a (List.mem_cons_self a l)
    have hl := filterMap_eq_map_filter_of f p g l
      (fun m hm => h m (List.mem_cons_of_mem a hm))
    by_cases hpa : p a = true
    · rw [ha, if_pos hpa, if_pos hpa, List.map_cons, hl]
    · rw [ha, if_neg hpa, if_neg hpa, hl]

/-- The extraction step as a filter of the match list followed by a map to
records: one record per match that survives the denylist check. -/
theorem extractImagesFromContent_eq (uid : String) (createTime : Int)
    (content pageTitle : String) :
    extractImagesFromContent uid createTime content pageTitle =
      ((findImageMatches content.data).filter
          (fun m => !containsSub denylist.data (jsTrimList m.2))).map
        (fun m =>
          { uid := uid
            url := String.mk (jsTrimList m.2)
            alt := if m.1 = [] then "Image" else String.mk m.1
            createTime := if createTime > 0 then some createTime else none
            pageTitle := if pageTitle = "" then "Untitled" else pageTitle
            blockContent := content
            parentContent := ""
            childrenContent := ""
            siblingsContent := ""
            searchableContent := jsToLower (content ++ " " ++ pageTitle)
            contextLoaded := false }) := by
  unfold extractImagesFromContent
  apply filterMap_eq_map_filter_of
  intro m hm
  have hne := findImageMatches_url_ne_nil content.data m hm
  rw [if_neg hne]
  dsimp only
  cases hd : containsSub denylist.data (jsTrimList m.2) <;> simp [hd]

/-- Every record the extraction step emits has a url that is fixed by
trimming. -/
theorem extract_url_trimmed {uid : String} {createTime : Int}
    {content pageTitle : String} {r : ImageRecord}
    (hr : r ∈ extractImagesFromContent uid createTime content pageTitle) :
    r.url = jsTrim r.url := by
  rw [extractImagesFromContent_eq] at hr
  rw [List.mem_map] at hr
  obtain ⟨m, _, rfl⟩ := hr
  show String.mk (jsTrimList m.2) = jsTrim (String.mk (jsTrimList m.2))
  unfold jsTrim
  rw [jsTrimList_idem]

/-! ### Batch processing lemmas -/

theorem foldl_catch_append (q : QueryOracle) :
    ∀ (batch : List (String × Int)) (init : List ImageRecord),
      List.foldl
        (fun images e =>
          match processBlock q e.1 e.2 with
          | Except.error _ => images
          | Except.ok newImages => images ++ newImages)
        init batch
        = init ++ batch.flatMap (blockImages q)
  | [], init => by simp
  | e :: batch, init => by
    rw [List.foldl_cons, List.flatMap_cons]
    cases hpb : processBlock q e.1 e.2 with
    | error err =>
      have hb : blockImages q e = [] := by unfold blockImages; rw [hpb]
      rw [hb, foldl_catch_append q batch init]
      simp
    | ok imgs =>
      have hb : blockImages q e = imgs := by unfold blockImages; rw [hpb]
      rw [hb, foldl_catch_append q batch (init ++ imgs)]
      simp

theorem processImageBatch_eq_flatMap (q : QueryOracle)
    (batch : List (String × Int)) :
    processImageBatch q batch = batch.flatMap (blockImages q) := by
  unfold processImageBatch
  rw [foldl_catch_append]
  simp

theorem flatMap_blockImages_filter (q : QueryOracle) :
    ∀ (batch : List (String × Int)),
      batch.flatMap (blockImages q)
        = (batch.filter
            (fun e => exceptOk (processBlock q e.1 e.2))).flatMap (blockImages q)
  | [] => rfl
  | e :: batch => by
    rw [List.flatMap_cons, List.filter_cons]
    cases hpb : processBlock q e.1 e.2 with
    | error err =>
      have hb : blockImages q e = [] := by unfold blockImages; rw [hpb]
      have hc : exceptOk (Except.error (ε := String) (α := List ImageRecord) err)
          = false := rfl
      rw [hb, hc]
      simpa using flatMap_blockImages_filter q batch
    | ok imgs =>
      have hb : blockImages q e = imgs := by unfold blockImages; rw [hpb]
      have hc : exceptOk (Except.ok (ε := String) (α := List ImageRecord) imgs)
          = true := rfl
      rw [hc, if_pos rfl, List.flatMap_cons, hb,
        ← flatMap_blockImages_filter q batch]

/-! ## Claims -/

/-- C1: for every block text, the extraction step of `processImageBatch`
produces exactly one record per well-formed markdown image marker whose
trimmed URL does not contain the denylisted domain, in left-to-right match
order, with no deduplication; each record's `url` is the captured URL trimmed
of surrounding whitespace and its `alt` is the captured alt text, or
`"Image"` when the captured alt is empty.  Markers whose URL contains the
denylisted substring also contain it after trimming, so they yield no
record. -/
theorem claim_extraction_per_marker (uid : String) (createTime : Int)
    (content pageTitle : String) :
    extractImagesFromContent uid createTime content pageTitle =
      ((findImageMatches content.data).filter
          (fun m => !containsSub denylist.data (jsTrimList m.2))).map
        (fun m =>
          { uid := uid
            url := String.mk (jsTrimList m.2)
            alt := if m.1 = [] then "Image" else String.mk m.1
            createTime := if createTime > 0 then some createTime else none
            pageTitle := if pageTitle = "" then "Untitled" else pageTitle
            blockContent := content
            parentContent := ""
            childrenContent := ""
            siblingsContent := ""
            searchableContent := jsToLower (content ++ " " ++ pageTitle)
            contextLoaded := false })
    ∧ ∀ m ∈ findImageMatches content.data,
        containsSub denylist.data m.2 = true →
        containsSub denylist.data (jsTrimList m.2) = true :=
  ⟨extractImagesFromContent_eq uid createTime content pageTitle,
   fun _ _ hd => containsSub_denylist_trim hd⟩

/-- C2 counterexample: the block text `"![a]( )"` has a well-formed marker
whose captured URL is the single space; the code trims it to the empty
string, the empty string does not contain the denylisted domain, and a
record with a blank url is emitted, contradicting the claim that every
record's url is non-blank. -/
theorem claim_url_nonblank_cex :
    ∃ r ∈ processImageBatch
      (fun _ => Except.ok [("![a]( )", "p")]) [("u", 0)], r.url = "" := by
  decide

/-- C2 (amended): every record produced by `processImageBatch` has a url
that is fixed by trimming, hence has no leading or trailing whitespace; it
can however be blank, namely when the captured URL consists entirely of
whitespace (as in the counterexample), since the code checks the captured
URL for emptiness before trimming and never re-checks afterwards. -/
theorem claim_url_trimmed (q : QueryOracle) (batch : List (String × Int))
    (r : ImageRecord) (hr : r ∈ processImageBatch q batch) :
    r.url = jsTrim r.url := by
  rw [processImageBatch_eq_flatMap, List.mem_flatMap] at hr
  obtain ⟨e, _, hre⟩ := hr
  unfold blockImages at hre
  revert hre
  cases hpb : processBlock q e.1 e.2 with
  | error err => intro hre; cases hre
  | ok imgs =>
    intro hre
    unfold processBlock at hpb
    revert hpb
    cases hq : q e.1 with
    | error err2 => intro hpb; cases hpb
    | ok rows =>
      intro hpb
      injection hpb with hpb
      subst hpb
      cases rows with
      | nil => cases hre
      | cons row rest =>
        obtain ⟨c0, p0⟩ := row
        exact extract_url_trimmed hre

/-- C2 (amended) witness: a concrete record produced from the block text
`"![a](x)"` whose url is fixed by trimming. -/
theorem claim_url_trimmed_witness :
    sampleRec ∈ processImageBatch
      (fun _ => Except.ok [("![a](x)", "p")]) [("u", 1)] ∧
    sampleRec.url = jsTrim sampleRec.url :=
  ⟨by decide,
   claim_url_trimmed (fun _ => Except.ok [("![a](x)", "p")]) [("u", 1)]
     sampleRec (by decide)⟩

/-- C6: `processImageBatch` equals the concatenation, in batch order, of the
per-block image lists, where a block whose query fails contributes nothing;
equivalently, it returns exactly what it returns on the sub-batch of blocks
whose query succeeds.  In particular a failing block never aborts the batch
(the function is total and the `catch` keeps the accumulator), and every
successful block's records are kept. -/
theorem claim_batch_error_handling (q : QueryOracle)
    (batch : List (String × Int)) :
    processImageBatch q batch = batch.flatMap (blockImages q) ∧
    processImageBatch q batch =
      processImageBatch q
        (batch.filter (fun e => exceptOk (processBlock q e.1 e.2))) := by
  refine ⟨processImageBatch_eq_flatMap q batch, ?_⟩
  rw [processImageBatch_eq_flatMap, processImageBatch_eq_flatMap]
  exact flatMap_blockImages_filter q batch

/-! ### Sorting lemmas -/

theorem newestLe_total (a b : ImageRecord) : NewestLe a b ∨ NewestLe b a := by
  unfold NewestLe newestCompare
  cases ha : a.createTime <;> cases hb : b.createTime <;> dsimp only <;> omega

theorem newestLe_trans (a b c : ImageRecord)
    (hab : NewestLe a b) (hbc : NewestLe b c) : NewestLe a c := by
  unfold NewestLe newestCompare at hab hbc ⊢
  revert hab hbc
  cases ha : a.createTime <;> cases hb : b.createTime <;> cases hc : c.createTime <;>
    dsimp only <;> omega

theorem oldestLe_total (a b : ImageRecord) : OldestLe a b ∨ OldestLe b a := by
  unfold OldestLe oldestCompare
  cases ha : a.createTime <;> cases hb : b.createTime <;> dsimp only <;> omega

theorem oldestLe_trans (a b c : ImageRecord)
    (hab : OldestLe a b) (hbc : OldestLe b c) : OldestLe a c := by
  unfold OldestLe oldestCompare at hab hbc ⊢
  revert hab hbc
  cases ha : a.createTime <;> cases hb : b.createTime <;> cases hc : c.createTime <;>
    dsimp only <;> omega

theorem newestLe_dest {a b : ImageRecord} (h : NewestLe a b) :
    (∀ ta ∈ a.createTime, ∀ tb ∈ b.createTime, tb ≤ ta) ∧
    (a.createTime = none → b.createTime = none) := by
  unfold NewestLe newestCompare at h
  revert h
  cases ha : a.createTime <;> cases hb : b.createTime <;> intro h <;>
    dsimp only at h <;> simp [ha, hb] <;> omega

theorem oldestLe_dest {a b : ImageRecord} (h : OldestLe a b) :
    (∀ ta ∈ a.createTime, ∀ tb ∈ b.createTime, ta ≤ tb) ∧
    (a.createTime = none → b.createTime = none) := by
  unfold OldestLe oldestCompare at h
  revert h
  cases ha : a.createTime <;> cases hb : b.createTime <;> intro h <;>
    dsimp only at h <;> simp [ha, hb] <;> omega

theorem newestLe_of_none {a b : ImageRecord}
    (ha : a.createTime = none) (hb : b.createTime = none) : NewestLe a b := by
  unfold NewestLe newestCompare
  rw [ha, hb]

theorem oldestLe_of_none {a b : ImageRecord}
    (ha : a.createTime = none) (hb : b.createTime = none) : OldestLe a b := by
  unfold OldestLe oldestCompare
  rw [ha, hb]

theorem filter_isNone_orderedInsert (r : ImageRecord → ImageRecord → Prop)
    [DecidableRel r]
    (hnull : ∀ a b : ImageRecord,
      a.createTime = none → b.createTime = none → r a b) :
    ∀ (a : ImageRecord) (l : List ImageRecord),
      (List.orderedInsert r a l).filter (fun x => x.createTime.isNone)
        = if a.createTime.isNone
          then a :: l.filter (fun x => x.createTime.isNone)
          else l.filter (fun x => x.createTime.isNone)
  | a, [] => by
    cases hna : a.createTime.isNone <;> simp [List.orderedInsert, List.filter, hna]
  | a, y :: ys => by
    rw [List.orderedInsert]
    by_cases hray : r a y
    · rw [if_pos hray, List.filter_cons]
    · rw [if_neg hray, List.filter_cons]
      by_cases hna : a.createTime.isNone = true
      · have hyn : y.createTime.isNone = false := by
          rcases hy : y.createTime.isNone with _ | _
          · rfl
          · exact absurd
              (hnull a y (Option.isNone_iff_eq_none.mp hna)
                (Option.isNone_iff_eq_none.mp hy)) hray
        rw [hyn, filter_isNone_orderedInsert r hnull a ys, if_pos hna, if_pos hna,
          List.filter_cons, hyn]
        simp
      · have hna2 : a.createTime.isNone = false := by
          rcases h2 : a.createTime.isNone with _ | _
          · rfl
          · exact absurd h2 hna
        rw [filter_isNone_orderedInsert r hnull a ys, if_neg hna, if_neg hna,
          List.filter_cons]

theorem filter_isNone_insertionSort (r : ImageRecord → ImageRecord → Prop)
    [DecidableRel r]
    (hnull : ∀ a b : ImageRecord,
      a.createTime = none → b.createTime = none → r a b) :
    ∀ (l : List ImageRecord),
      (List.insertionSort r l).filter (fun x => x.createTime.isNone)
        = l.filter (fun x => x.createTime.isNone)
  | [] => rfl
  | a :: l => by
    rw [List.insertionSort, filter_isNone_orderedInsert r hnull,
      filter_isNone_insertionSort r hnull l, List.filter_cons]

theorem sortImages_newest (lc : String → String → Int) (images : List ImageRecord) :
    sortImages lc images "newest" = List.insertionSort NewestLe images := by
  simp [sortImages]

theorem sortImages_oldest (lc : String → String → Int) (images : List ImageRecord) :
    sortImages lc images "oldest" = List.insertionSort OldestLe images := by
  simp [sortImages]

theorem sortImages_pageAlpha (lc : String → String → Int) (images : List ImageRecord) :
    sortImages lc images "page-alpha" = List.insertionSort (PageLe lc) images := by
  simp [sortImages]

theorem sortImages_pageReverse (lc : String → String → Int) (images : List ImageRecord) :
    sortImages lc images "page-reverse" = List.insertionSort (PageGe lc) images := by
  simp [sortImages]

theorem sortImages_default (lc : String → String → Int) (images : List ImageRecord)
    (mode : String) (h1 : mode ≠ "newest") (h2 : mode ≠ "oldest")
    (h3 : mode ≠ "page-alpha") (h4 : mode ≠ "page-reverse") :
    sortImages lc images mode = List.insertionSort NewestLe images := by
  simp [sortImages, h1, h2, h3, h4]

theorem sortImages_perm (lc : String → String → Int) (images : List ImageRecord)
    (mode : String) : (sortImages lc images mode).Perm images := by
  unfold sortImages
  split_ifs <;> exact List.perm_insertionSort _ _

/-- C3: for every image list, `sortImages` with mode `newest` yields an
output in which any two timestamped records are in descending `createTime`
order, every null-timestamp record comes after every timestamped record, and
the null-timestamp records keep their relative input order (their filtered
subsequence is unchanged); with mode `oldest` the same holds with ascending
order.  The concrete scenario sorts `[null, 100, 50]` to `[100, 50, null]`
under `newest` and `[50, 100, null]` under `oldest`. -/
theorem claim_sort_by_time (lc : String → String → Int) (images : List ImageRecord) :
    ((sortImages lc images "newest").Pairwise (fun a b =>
        (∀ ta ∈ a.createTime, ∀ tb ∈ b.createTime, tb ≤ ta) ∧
        (a.createTime = none → b.createTime = none))
      ∧ (sortImages lc images "newest").filter (fun x => x.createTime.isNone)
          = images.filter (fun x => x.createTime.isNone))
    ∧ ((sortImages lc images "oldest").Pairwise (fun a b =>
        (∀ ta ∈ a.createTime, ∀ tb ∈ b.createTime, ta ≤ tb) ∧
        (a.createTime = none → b.createTime = none))
      ∧ (sortImages lc images "oldest").filter (fun x => x.createTime.isNone)
          = images.filter (fun x => x.createTime.isNone))
    ∧ sortImages lc [mkTestRec none, mkTestRec (some 100), mkTestRec (some 50)] "newest"
        = [mkTestRec (some 100), mkTestRec (some 50), mkTestRec none]
    ∧ sortImages lc [mkTestRec none, mkTestRec (some 100), mkTestRec (some 50)] "oldest"
        = [mkTestRec (some 50), mkTestRec (some 100), mkTestRec none] := by
  refine ⟨⟨?_, ?_⟩, ⟨?_, ?_⟩, ?_, ?_⟩
  · rw [sortImages_newest]
    haveI : IsTotal ImageRecord NewestLe := ⟨newestLe_total⟩
    haveI : IsTrans ImageRecord NewestLe := ⟨newestLe_trans⟩
    exact List.Pairwise.imp (fun hab => newestLe_dest hab)
      (List.sorted_insertionSort NewestLe images)
  · rw [sortImages_newest]
    exact filter_isNone_insertionSort NewestLe
      (fun a b ha hb => newestLe_of_none ha hb) images
  · rw [sortImages_oldest]
    haveI : IsTotal ImageRecord OldestLe := ⟨oldestLe_total⟩
    haveI : IsTrans ImageRecord OldestLe := ⟨oldestLe_trans⟩
    exact List.Pairwise.imp (fun hab => oldestLe_dest hab)
      (List.sorted_insertionSort OldestLe images)
  · rw [sortImages_oldest]
    exact filter_isNone_insertionSort OldestLe
      (fun a b ha hb => oldestLe_of_none ha hb) images
  · rw [sortImages_newest]
    decide
  · rw [sortImages_oldest]
    decide

/-- C8: for every image list and every mode that is none of the four known
sort orders, `sortImages` returns exactly what it returns for `newest`. -/
theorem claim_unknown_mode_fallback (lc : String → String → Int)
    (images : List ImageRecord) (mode : String)
    (h1 : mode ≠ "newest") (h2 : mode ≠ "oldest")
    (h3 : mode ≠ "page-alpha") (h4 : mode ≠ "page-reverse") :
    sortImages lc images mode = sortImages lc images "newest" := by
  rw [sortImages_default lc images mode h1 h2 h3 h4, sortImages_newest]

/-- C8 witness: the unknown mode `"created"` sorts like `newest`. -/
theorem claim_unknown_mode_fallback_witness :
    (("created" : String) ≠ "newest" ∧ ("created" : String) ≠ "oldest"
      ∧ ("created" : String) ≠ "page-alpha" ∧ ("created" : String) ≠ "page-reverse")
    ∧ sortImages constCompare [mkTestRec (some 3), mkTestRec none] "created"
        = sortImages constCompare [mkTestRec (some 3), mkTestRec none] "newest" :=
  ⟨⟨by decide, by decide, by decide, by decide⟩,
   claim_unknown_mode_fallback constCompare [mkTestRec (some 3), mkTestRec none]
     "created" (by decide) (by decide) (by decide) (by decide)⟩

/-- C9: whenever the host's locale comparison is a consistent comparator (a
total preorder), `sortImages` with mode `page-alpha` produces an output that
is pairwise ascending under the locale comparison of `pageTitle`, and with
mode `page-reverse` pairwise descending. -/
theorem claim_sort_by_title (lc : String → String → Int)
    (images : List ImageRecord)
    (htot : ∀ s t : String, lc s t ≤ 0 ∨ lc t s ≤ 0)
    (htrans : ∀ s t u : String, lc s t ≤ 0 → lc t u ≤ 0 → lc s u ≤ 0) :
    (sortImages lc images "page-alpha").Pairwise
      (fun a b => lc a.pageTitle b.pageTitle ≤ 0)
    ∧ (sortImages lc images "page-reverse").Pairwise
      (fun a b => lc b.pageTitle a.pageTitle ≤ 0) := by
  refine ⟨?_, ?_⟩
  · rw [sortImages_pageAlpha]
    haveI : IsTotal ImageRecord (PageLe lc) :=
      ⟨fun a b => htot a.pageTitle b.pageTitle⟩
    haveI : IsTrans ImageRecord (PageLe lc) :=
      ⟨fun a b c hab hbc => htrans a.pageTitle b.pageTitle c.pageTitle hab hbc⟩
    exact List.sorted_insertionSort (PageLe lc) images
  · rw [sortImages_pageReverse]
    haveI : IsTotal ImageRecord (PageGe lc) :=
      ⟨fun a b => Or.symm (htot a.pageTitle b.pageTitle)⟩
    haveI : IsTrans ImageRecord (PageGe lc) :=
      ⟨fun a b c hab hbc => htrans c.pageTitle b.pageTitle a.pageTitle hbc hab⟩
    exact List.sorted_insertionSort (PageGe lc) images

/-- C9 witness: the constant comparator is consistent and the title sorts of
a singleton list are pairwise ordered under it. -/
theorem claim_sort_by_title_witness :
    (∀ s t : String, constCompare s t ≤ 0 ∨ constCompare t s ≤ 0)
    ∧ (∀ s t u : String,
        constCompare s t ≤ 0 → constCompare t u ≤ 0 → constCompare s u ≤ 0)
    ∧ (sortImages constCompare [sampleRec] "page-alpha").Pairwise
        (fun a b => constCompare a.pageTitle b.pageTitle ≤ 0)
    ∧ (sortImages constCompare [sampleRec] "page-reverse").Pairwise
        (fun a b => constCompare b.pageTitle a.pageTitle ≤ 0) := by
  have h1 : ∀ s t : String, constCompare s t ≤ 0 ∨ constCompare t s ≤ 0 :=
    fun _ _ => Or.inl (Int.le_refl 0)
  have h2 : ∀ s t u : String,
      constCompare s t ≤ 0 → constCompare t u ≤ 0 → constCompare s u ≤ 0 :=
    fun _ _ _ _ _ => Int.le_refl 0
  exact ⟨h1, h2, (claim_sort_by_title constCompare [sampleRec] h1 h2).1,
    (claim_sort_by_title constCompare [sampleRec] h1 h2).2⟩

/-- C4: in the reference model of JS arrays, calling `sortImages` on a live
reference grows the heap by one array (the copy), leaves every pre-existing
array — in particular the input — exactly as it was, and returns a fresh
reference distinct from the input whose content is the sorted sequence. -/
theorem claim_sort_no_mutation (lc : String → String → Int)
    (heap : List (List ImageRecord)) (r : Nat) (mode : String)
    (hr : r < heap.length) :
    (sortImagesRef lc heap r mode).1.length = heap.length + 1
    ∧ (∀ i, i < heap.length → (sortImagesRef lc heap r mode).1[i]? = heap[i]?)
    ∧ (sortImagesRef lc heap r mode).2 ≠ r
    ∧ (sortImagesRef lc heap r mode).1[(sortImagesRef lc heap r mode).2]?
        = some (sortImages lc (heap.getD r []) mode) := by
  unfold sortImagesRef
  dsimp only
  refine ⟨?_, ?_, ?_, ?_⟩
  · rw [List.length_set, List.length_append, List.length_singleton]
  · intro i hi
    have hne : heap.length ≠ i := by omega
    rw [List.getElem?_set_ne hne, List.getElem?_append_left hi]
  · omega
  · have hlen : heap.length < (heap ++ [heap.getD r []]).length := by
      rw [List.length_append, List.length_singleton]
      omega
    rw [List.getElem?_set_self hlen]

/-- C4 witness: sorting the single live array leaves it unchanged and
returns a fresh reference. -/
theorem claim_sort_no_mutation_witness :
    0 < [[sampleRec]].length
    ∧ ((sortImagesRef constCompare [[sampleRec]] 0 "newest").1.length
          = [[sampleRec]].length + 1
      ∧ (∀ i, i < [[sampleRec]].length →
          (sortImagesRef constCompare [[sampleRec]] 0 "newest").1[i]?
            = [[sampleRec]][i]?)
      ∧ (sortImagesRef constCompare [[sampleRec]] 0 "newest").2 ≠ 0
      ∧ (sortImagesRef constCompare [[sampleRec]] 0 "newest").1[
          (sortImagesRef constCompare [[sampleRec]] 0 "newest").2]?
          = some (sortImages constCompare ([[sampleRec]].getD 0 []) "newest")) :=
  ⟨by decide, claim_sort_no_mutation constCompare [[sampleRec]] 0 "newest" (by decide)⟩

/-! ### Search filter lemmas -/

theorem jsIncludes_empty_needle (s : String) : jsIncludes s "" = true :=
  containsSub_nil_left s.data

theorem searchFilter_eq (lc : String → String → Int) (allImages : List ImageRecord)
    (value : String) (mode : String) :
    searchFilter lc allImages value mode
      = sortImages lc
          (allImages.filter
            (fun img => jsIncludes img.searchableContent (jsToLower value)))
          mode := by
  unfold searchFilter
  by_cases hterm : jsToLower value = ""
  · rw [if_neg (not_not_intro hterm), hterm]
    have hall : allImages.filter (fun img => jsIncludes img.searchableContent "")
        = allImages :=
      List.filter_eq_self.mpr (fun a _ => jsIncludes_empty_needle _)
    rw [hall]
  · rw [if_pos hterm]

/-- C5: the search handler returns exactly the records whose searchable
corpus contains the lowercased search term as a substring, with the current
sort mode re-applied to the filtered subset; an empty search term yields the
full input list re-sorted, unchanged in membership.  The filter reads only
the currently-available corpus field, so it is total (never throws) for
records whose enrichment has not yet run. -/
theorem claim_search_filter (lc : String → String → Int)
    (allImages : List ImageRecord) (value : String) (mode : String) :
    searchFilter lc allImages value mode
      = sortImages lc
          (allImages.filter
            (fun img => jsIncludes img.searchableContent (jsToLower value)))
          mode
    ∧ (∀ r : ImageRecord,
        r ∈ searchFilter lc allImages value mode ↔
          r ∈ allImages ∧ jsIncludes r.searchableContent (jsToLower value) = true)
    ∧ (searchFilter lc allImages "" mode).Perm allImages := by
  refine ⟨searchFilter_eq lc allImages value mode, ?_, ?_⟩
  · intro r
    rw [searchFilter_eq lc allImages value mode,
      (sortImages_perm lc _ mode).mem_iff, List.mem_filter]
  · rw [searchFilter_eq lc allImages "" mode]
    have hall : allImages.filter
        (fun img => jsIncludes img.searchableContent (jsToLower "")) = allImages :=
      List.filter_eq_self.mpr (fun a _ => jsIncludes_empty_needle _)
    rw [hall]
    exact sortImages_perm lc allImages mode

/-- C7: enrichment is a no-op on an already-enriched record: if the record
at position `i` has its context-loaded flag set, `enhanceImage` returns it
unchanged and issues no context query for it, and the list produced by
`enhanceImagesWithContext` still has exactly that record at position `i`. -/
theorem claim_enrichment_idempotent (ctx : String → BlockContext)
    (images : List ImageRecord) (i : Nat) (hi : i < images.length)
    (hl : (images.get ⟨i, hi⟩).contextLoaded = true) :
    enhanceImage ctx (images.get ⟨i, hi⟩) = (images.get ⟨i, hi⟩, [])
    ∧ (enhanceImagesWithContext ctx images).1[i]? = some (images.get ⟨i, hi⟩) := by
  have h1 : enhanceImage ctx (images.get ⟨i, hi⟩) = (images.get ⟨i, hi⟩, []) := by
    unfold enhanceImage
    rw [if_pos hl]
  refine ⟨h1, ?_⟩
  unfold enhanceImagesWithContext
  dsimp only
  rw [List.getElem?_map, List.getElem?_eq_getElem hi]
  simp only [Option.map_some', List.get_eq_getElem] at h1 ⊢
  rw [h1]

/-- C7 witness: an already-enriched record passes through enrichment
untouched and unqueried. -/
theorem claim_enrichment_idempotent_witness :
    0 < [loadedRec].length
    ∧ loadedRec.contextLoaded = true
    ∧ (enhanceImage ctxSample ([loadedRec].get ⟨0, by decide⟩)
        = ([loadedRec].get ⟨0, by decide⟩, [])
      ∧ (enhanceImagesWithContext ctxSample [loadedRec]).1[0]?
          = some ([loadedRec].get ⟨0, by decide⟩)) :=
  ⟨by decide, by decide,
   claim_enrichment_idempotent ctxSample [loadedRec] 0 (by decide) (by decide)⟩

/-- C10: enriching a not-yet-enriched record changes only the three context
fields, the searchable content and the context-loaded flag: the identity
fields `uid`, `url`, `alt`, `createTime`, `pageTitle` and `blockContent` are
unchanged, the context fields take the fetched context, the searchable
content becomes the lowercased space-joined concatenation of block content,
parent, children, siblings and page title, and the flag becomes true. -/
theorem claim_enrichment_frame (ctx : String → BlockContext) (img : ImageRecord)
    (h : img.contextLoaded = false) :
    (enhanceImage ctx img).1.uid = img.uid
    ∧ (enhanceImage ctx img).1.url = img.url
    ∧ (enhanceImage ctx img).1.alt = img.alt
    ∧ (enhanceImage ctx img).1.createTime = img.createTime
    ∧ (enhanceImage ctx img).1.pageTitle = img.pageTitle
    ∧ (enhanceImage ctx img).1.blockContent = img.blockContent
    ∧ (enhanceImage ctx img).1.parentContent = (ctx img.uid).parentContent
    ∧ (enhanceImage ctx img).1.childrenContent = (ctx img.uid).childrenContent
    ∧ (enhanceImage ctx img).1.siblingsContent = (ctx img.uid).siblingsContent
    ∧ (enhanceImage ctx img).1.searchableContent
        = jsToLower (img.blockContent ++ " " ++ (ctx img.uid).parentContent ++ " "
            ++ (ctx img.uid).childrenContent ++ " " ++ (ctx img.uid).siblingsContent
            ++ " " ++ img.pageTitle)
    ∧ (enhanceImage ctx img).1.contextLoaded = true := by
  have hne : ¬ img.contextLoaded = true := by simp [h]
  unfold enhanceImage
  rw [if_neg hne]
  exact ⟨rfl, rfl, rfl, rfl, rfl, rfl, rfl, rfl, rfl, rfl, rfl⟩

/-- C10 witness: enriching a concrete unenriched record keeps its identity
fields and installs the fetched context. -/
theorem claim_enrichment_frame_witness :
    (mkTestRec none).contextLoaded = false
    ∧ ((enhanceImage ctxSample (mkTestRec none)).1.uid = (mkTestRec none).uid
      ∧ (enhanceImage ctxSample (mkTestRec none)).1.url = (mkTestRec none).url
      ∧ (enhanceImage ctxSample (mkTestRec none)).1.alt = (mkTestRec none).alt
      ∧ (enhanceImage ctxSample (mkTestRec none)).1.createTime
          = (mkTestRec none).createTime
      ∧ (enhanceImage ctxSample (mkTestRec none)).1.pageTitle
          = (mkTestRec none).pageTitle
      ∧ (enhanceImage ctxSample (mkTestRec none)).1.blockContent
          = (mkTestRec none).blockContent
      ∧ (enhanceImage ctxSample (mkTestRec none)).1.parentContent
          = (ctxSample (mkTestRec none).uid).parentContent
      ∧ (enhanceImage ctxSample (mkTestRec none)).1.childrenContent
          = (ctxSample (mkTestRec none).uid).childrenContent
      ∧ (enhanceImage ctxSample (mkTestRec none)).1.siblingsContent
          = (ctxSample (mkTestRec none).uid).siblingsContent
      ∧ (enhanceImage ctxSample (mkTestRec none)).1.searchableContent
          = jsToLower ((mkTestRec none).blockContent ++ " "
              ++ (ctxSample (mkTestRec none).uid).parentContent ++ " "
              ++ (ctxSample (mkTestRec none).uid).childrenContent ++ " "
              ++ (ctxSample (mkTestRec none).uid).siblingsContent ++ " "
              ++ (mkTestRec none).pageTitle)
      ∧ (enhanceImage ctxSample (mkTestRec none)).1.contextLoaded = true) :=
  ⟨rfl, claim_enrichment_frame ctxSample (mkTestRec none) rfl⟩

end RoamImager
